import Mathlib

/-!
Verification of the document model, change ledger and navigation state
machine of the terminal YAML configuration editor (`src/main.py`).

Python strings are modelled as `List Char`, Python dicts as insertion
ordered association lists (`insertD` replaces in place, like `d[k] = v`),
and the tree of `YAMLNode` objects as an inductive tree whose parent
pointers are represented by the chain of ancestor keys passed to the
functions that need them (`get_node_path` walks the parent chain in the
source; here the chain is the accumulator argument).
-/

namespace YamlTui

abbrev Str := List Char

/-- Whitespace characters stripped by Python `str.strip()`. -/
def wsChar (c : Char) : Bool :=
  (c == ' ') || (c == '\t') || (c == '\n') || (c == '\r') ||
  (c == Char.ofNat 11) || (c == Char.ofNat 12)

/-- Quote characters stripped by `value.strip('"\x27')` in `load_env_file`. -/
def quoteChar (c : Char) : Bool := (c == '"') || (c == '\'')

/-- Python `c in s` membership test on strings. -/
def containsC (c : Char) : Str → Bool
  | [] => false
  | x :: t => if x = c then true else containsC c t

/-- Remove trailing characters satisfying `p` (the tail half of `strip`). -/
def dropTrail (p : Char → Bool) (l : Str) : Str := (l.reverse.dropWhile p).reverse

/-- Python `str.strip()`: whitespace removed from both ends. -/
def stripWs (l : Str) : Str := dropTrail wsChar (l.dropWhile wsChar)

/-- Python `value.strip('"\x27')`: quote characters removed from both ends. -/
def stripQuotes (l : Str) : Str := dropTrail quoteChar (l.dropWhile quoteChar)

/-- Python dict from identity to value (`self.changes`, `self.original_values`). -/
abbrev Dict := List (Str × Str)

/-- Python dict lookup `d[k]` / `k in d`. -/
def lookupD (k : Str) : Dict → Option Str
  | [] => none
  | p :: t => if k = p.1 then some p.2 else lookupD k t

/-- Python dict assignment `d[k] = v`: replace in place or append. -/
def insertD (k v : Str) : Dict → Dict
  | [] => [(k, v)]
  | p :: t => if k = p.1 then (k, v) :: t else p :: insertD k v t

def keysOf : Dict → List Str
  | [] => []
  | p :: t => p.1 :: keysOf t

/-- Python dict equality `d1 == d2`: same key/value pairs, order irrelevant. -/
def dictEqB (d1 d2 : Dict) : Bool :=
  d1.all (fun p => lookupD p.1 d2 == some p.2) &&
  d2.all (fun p => lookupD p.1 d1 == some p.2)

/-- `YAMLEditor.has_unsaved_changes`: `self.changes != self.original_values`. -/
def hasUnsavedChanges (changes originalValues : Dict) : Bool :=
  !(dictEqB changes originalValues)

/-- The literal `"export "` prefix used by `load_env_file` and `save_changes`. -/
def exportHdr : Str := ['e', 'x', 'p', 'o', 'r', 't', ' ']

/-- Split a string on a separator character, like Python line iteration
splits file content on newlines. -/
def splitOnChar (sep : Char) : Str → List Str
  | [] => [[]]
  | c :: t =>
    if c = sep then [] :: splitOnChar sep t
    else
      match splitOnChar sep t with
      | [] => [[c]]
      | h :: r => (c :: h) :: r

/-- `line.startswith('export ')` followed by `line[7:]`. -/
def stripExport (s : Str) : Option Str :=
  if s.take 7 = exportHdr then some (s.drop 7) else none

/-- One loop body of `load_env_file`: strip the line, require the
`export ` head, split on the first `=`, strip quotes from the value. -/
def parseLine (line : Str) : Option (Str × Str) :=
  match stripExport (stripWs line) with
  | none => none
  | some rest =>
    if containsC '=' rest then
      some (rest.takeWhile (fun c => !(c == '=')),
            stripQuotes ((rest.dropWhile (fun c => !(c == '='))).drop 1))
    else none

/-- Fold `parseLine` over the lines of the store, skipping malformed ones. -/
def loadLines : List Str → Dict → Dict
  | [], d => d
  | l :: ls, d =>
    match parseLine l with
    | some nv => loadLines ls (insertD nv.1 nv.2 d)
    | none => loadLines ls d

/-- `YAMLEditor.load_env_file` applied to the text content of `export.env`. -/
def loadStore (content : Str) : Dict := loadLines (splitOnChar '\n' content) []

/-- One line written by `save_changes`: `export NAME=VALUE`. -/
def renderLine (n v : Str) : Str := exportHdr ++ n ++ '=' :: v

def concatAll : List Str → Str
  | [] => []
  | x :: t => x ++ concatAll t

/-- `YAMLEditor.save_changes`: one `export NAME=VALUE\n` line per entry,
in dict iteration order, overwriting the store wholesale. -/
def saveContent (d : Dict) : Str :=
  concatAll (d.map (fun p => renderLine p.1 p.2 ++ ['\n']))

/-- Well-formed ledger key: no `=` (the split would cut it short) and no
newline (the line would split in two on read). -/
def goodName (n : Str) : Bool := !(containsC '=' n) && !(containsC '\n' n)

def headCh : Str → Char → Char
  | [], d => d
  | c :: _, _ => c

def lastCh (l : Str) (d : Char) : Char := headCh l.reverse d

/-- Well-formed ledger value: no newline, no trailing whitespace (eaten by
`line.strip()`), and no leading or trailing quote character (eaten by
`value.strip('"\x27')`). -/
def goodVal (v : Str) : Bool :=
  !(containsC '\n' v) &&
  (v.isEmpty ||
    (!(wsChar (lastCh v ' ')) && !(quoteChar (lastCh v ' ')) &&
     !(quoteChar (headCh v ' '))))

/-- Boolean list membership for `Str`. -/
def memB (x : Str) : List Str → Bool
  | [] => false
  | y :: t => if x = y then true else memB x t

/-- Boolean duplicate-freedom for key lists. -/
def nodupB : List Str → Bool
  | [] => true
  | x :: t => !(memB x t) && nodupB t

/-- A parsed document value as produced by the external YAML parser:
a mapping, a string scalar, or some other (non-string, non-mapping)
scalar, here represented by an integer. -/
inductive YVal : Type where
  | s : Str → YVal
  | i : Int → YVal
  | m : List (Str × YVal) → YVal

def isMap : YVal → Bool
  | .m _ => true
  | _ => false

/-- The placeholder recognition in `YAMLNode.__init__`: if the string
value starts with `${` and contains `}`, the substring between index 2
and the first `}` is split on the first `:` into the env var name and
the default; otherwise the value is returned unchanged with no binding. -/
def parsePlaceholder (v : Str) : Option Str × Str :=
  if v.take 2 = ['$', '{'] ∧ containsC '}' v = true then
    let ep := (v.drop 2).takeWhile (fun c => !(c == '}'))
    if containsC ':' ep then
      (some (ep.takeWhile (fun c => !(c == ':'))),
       (ep.dropWhile (fun c => !(c == ':'))).drop 1)
    else (some ep, [])
  else (none, v)

/-- One `YAMLNode` object: key, (display) value, owned children,
`is_leaf` flag, optional env var binding and optional comment. The
parent back-reference of the source is represented externally by the
ancestor key chain arguments of the functions below. -/
inductive YAMLNode : Type where
  | mk (key : Str) (value : YVal) (children : List YAMLNode)
       (isLeafFlag : Bool) (envVarFld : Option Str) (commentFld : Option Str)

def YAMLNode.key : YAMLNode → Str
  | .mk k _ _ _ _ _ => k

def YAMLNode.value : YAMLNode → YVal
  | .mk _ v _ _ _ _ => v

def YAMLNode.children : YAMLNode → List YAMLNode
  | .mk _ _ cs _ _ _ => cs

def YAMLNode.isLeaf : YAMLNode → Bool
  | .mk _ _ _ lf _ _ => lf

def YAMLNode.envVar : YAMLNode → Option Str
  | .mk _ _ _ _ ev _ => ev

def YAMLNode.comment : YAMLNode → Option Str
  | .mk _ _ _ _ _ cm => cm

mutual
/-- `YAMLNode.__init__(key, value)`: `is_leaf` iff the value is not a
mapping; string scalars go through placeholder extraction; mapping
values produce one child per entry, in document order. -/
def buildNode (key : Str) (v : YVal) : YAMLNode :=
  match v with
  | .m kvs => .mk key (.m kvs) (buildForest kvs) false none none
  | .s str =>
    let p := parsePlaceholder str
    .mk key (.s p.2) [] true p.1 none
  | .i n => .mk key (.i n) [] true none none

def buildForest : List (Str × YVal) → List YAMLNode
  | [] => []
  | kv :: rest => buildNode kv.1 kv.2 :: buildForest rest
end

/-- Python truthiness of `node.env_var`: `None` and `""` are falsy. -/
def envTruthy : Option Str → Bool
  | none => false
  | some e => !e.isEmpty

/-- `'_'.join(...)` over the reversed ancestor key chain, as computed by
`YAMLEditor.get_node_path` (the root key is never part of the chain). -/
def joinU : List Str → Str
  | [] => []
  | [x] => x
  | x :: y :: t => x ++ '_' :: joinU (y :: t)

/-- The value assignment performed by `_update_node_values` on one node:
a truthy `env_var` present in the ledger overrides the value; an env-less
leaf is looked up under its joined path. -/
def updVal (changes : Dict) (chain : List Str) (ev : Option Str)
    (lf : Bool) (v : YVal) : YVal :=
  if envTruthy ev then
    match lookupD (ev.getD []) changes with
    | some nv => .s nv
    | none => v
  else if lf then
    match lookupD (joinU chain) changes with
    | some nv => .s nv
    | none => v
  else v

mutual
/-- `YAMLEditor._update_node_values` (rehydration): `chain` is the key
chain from below the root down to this node, so `joinU chain` is this
node's `get_node_path`. -/
def updateNode (changes : Dict) (chain : List Str) : YAMLNode → YAMLNode
  | .mk k v cs lf ev cm =>
    .mk k (updVal changes chain ev lf v) (updateForest changes chain cs) lf ev cm

def updateForest (changes : Dict) (chain : List Str) : List YAMLNode → List YAMLNode
  | [] => []
  | c :: t => updateNode changes (chain ++ [c.key]) c :: updateForest changes chain t
end

mutual
/-- All nodes of a tree (the node itself and its descendants). -/
def allNodes : YAMLNode → List YAMLNode
  | .mk k v cs lf ev cm => .mk k v cs lf ev cm :: allNodesF cs

def allNodesF : List YAMLNode → List YAMLNode
  | [] => []
  | c :: t => allNodes c ++ allNodesF t
end

mutual
/-- The ancestor key chains (`get_node_path` inputs) of every leaf that
has no truthy `env_var` binding; `acc` is the chain of the node itself. -/
def leafChains (acc : List Str) : YAMLNode → List (List Str)
  | .mk _ _ cs lf ev _ =>
    if lf && !(envTruthy ev) then [acc]
    else leafChainsF acc cs

def leafChainsF (acc : List Str) : List YAMLNode → List (List Str)
  | [] => []
  | c :: t => leafChains (acc ++ [c.key]) c ++ leafChainsF acc t
end

mutual
/-- Sibling keys are duplicate-free at every node of the tree. -/
def sibUniqB : YAMLNode → Bool
  | .mk _ _ cs _ _ _ => nodupB (cs.map YAMLNode.key) && sibUniqFB cs

def sibUniqFB : List YAMLNode → Bool
  | [] => true
  | c :: t => sibUniqB c && sibUniqFB t
end

mutual
/-- No key anywhere in the tree contains an underscore. -/
def undFreeB : YAMLNode → Bool
  | .mk k _ cs _ _ _ => !(containsC '_' k) && undFreeFB cs

def undFreeFB : List YAMLNode → Bool
  | [] => true
  | c :: t => undFreeB c && undFreeFB t
end

/-- The comment extraction loop of `parse_yaml`: for each line containing
`#`, the stripped text before the first `#` maps to the stripped text
from `#` onward; later lines win. -/
def extractComments (content : Str) : Dict :=
  (splitOnChar '\n' content).foldl
    (fun m line =>
      if containsC '#' line then
        let kp := stripWs (line.takeWhile (fun c => !(c == '#')))
        let cm := stripWs (line.dropWhile (fun c => !(c == '#')))
        if kp = [] then m else insertD kp cm m
      else m) []

mutual
/-- `YAMLEditor._add_comments`: attach the comment mapped to this key, if
any, at every node of the tree. -/
def addComments (comments : Dict) : YAMLNode → YAMLNode
  | .mk k v cs lf ev cm =>
    .mk k v (addCommentsF comments cs) lf ev
      (match lookupD k comments with
       | some c => some c
       | none => cm)

def addCommentsF (comments : Dict) : List YAMLNode → List YAMLNode
  | [] => []
  | c :: t => addComments comments c :: addCommentsF comments t
end

/-- The literal `Failed to load YAML: ` message head. -/
def failMsgHdr : Str :=
  ['F', 'a', 'i', 'l', 'e', 'd', ' ', 't', 'o', ' ', 'l', 'o', 'a', 'd',
   ' ', 'Y', 'A', 'M', 'L', ':', ' ']

/-- `YAMLEditor.parse_yaml`: on a successful external parse, build the
tree, overlay comments and rehydrate from the ledger; on any read or
parse failure (the `except` branch), fall back to a synthetic root with
one `error` leaf carrying the failure message. -/
def parseYaml (raw : Str) (parsed : Except Str YVal) (changes : Dict) : YAMLNode :=
  match parsed with
  | .ok data =>
    updateNode changes [] (addComments (extractComments raw) (buildNode ('r' :: 'o' :: 'o' :: 't' :: []) data))
  | .error e =>
    buildNode ('r' :: 'o' :: 'o' :: 't' :: [])
      (.m [(('e' :: 'r' :: 'r' :: 'o' :: 'r' :: []),
            .s (failMsgHdr ++ e))])

/-- The mutable editor/session object of `YAMLEditor`. `pos` is the list
of child indices from the root to `current_node`, standing in for the
parent pointer chain; positions, scroll offsets and the two ledgers are
as in `__init__`. -/
structure EditorState where
  root : YAMLNode
  changes : Dict
  originalValues : Dict
  pos : List Nat
  navPosition : Int
  scrollOffset : Int
  editPosition : Int
  editScrollOffset : Int
  editMode : Bool

/-- Follow a child index path down the tree (`self.current_node`). -/
def nodeAt : YAMLNode → List Nat → YAMLNode
  | n, [] => n
  | n, idx :: t =>
    match n.children.get? idx with
    | some c => nodeAt c t
    | none => n

def currentNode (s : EditorState) : YAMLNode := nodeAt s.root s.pos

/-- `get_navigable_nodes`: non-leaf children of the current node. -/
def navigableNodes (s : EditorState) : List YAMLNode :=
  (currentNode s).children.filter (fun n => !n.isLeaf)

/-- `get_editable_nodes`: leaf children of the current node. -/
def editableNodes (s : EditorState) : List YAMLNode :=
  (currentNode s).children.filter (fun n => n.isLeaf)

/-- The keys along a child index path, i.e. the ancestor key chain of the
node reached by the path (the root key is excluded, as in
`get_node_path`, which stops when `parent is None`). -/
def chainAt : YAMLNode → List Nat → List Str
  | _, [] => []
  | n, idx :: t =>
    match n.children.get? idx with
    | some c => c.key :: chainAt c t
    | none => []

/-- Raw index, among all children, of the k-th child satisfying `p`
(mapping a filtered pane index back to the child list). -/
def nthSatIdx (p : YAMLNode → Bool) : List YAMLNode → Nat → Option Nat
  | [], _ => none
  | c :: t, k =>
    if p c then
      if k = 0 then some 0
      else (nthSatIdx p t (k - 1)).map (· + 1)
    else (nthSatIdx p t k).map (· + 1)

mutual
/-- Overwrite `node.value` with a string at the end of an index path
(the `node.value = new_value` mutation in `edit_value`). -/
def updValueAt : YAMLNode → List Nat → Str → YAMLNode
  | .mk k _ cs lf ev cm, [], nv => .mk k (.s nv) cs lf ev cm
  | .mk k v cs lf ev cm, idx :: t, nv => .mk k v (updChildren cs idx t nv) lf ev cm

def updChildren : List YAMLNode → Nat → List Nat → Str → List YAMLNode
  | [], _, _, _ => []
  | c :: cs, 0, t, nv => updValueAt c t nv :: cs
  | c :: cs, j + 1, t, nv => c :: updChildren cs j t nv
end

def defaultNode : YAMLNode := .mk [] (.s []) [] true none none

/-- `YAMLEditor.edit_value` on the leaf selected in the edit pane, with
the text typed by the user passed in as `inp`: empty input is a no-op,
otherwise the node value is overwritten and the ledger records the new
value under the leaf's env var (if truthy) or its joined path. -/
def editValueStep (inp : Str) (s : EditorState) : EditorState :=
  match nthSatIdx (fun n => n.isLeaf) (currentNode s).children s.editPosition.toNat with
  | none => s
  | some j =>
    if inp = [] then s
    else
      let node := ((currentNode s).children.get? j).getD defaultNode
      let name :=
        if envTruthy node.envVar then node.envVar.getD []
        else joinU (chainAt s.root s.pos ++ [node.key])
      { s with root := updValueAt s.root (s.pos ++ [j]) inp,
               changes := insertD name inp s.changes }

/-- The three keys accepted by the `confirm_exit` prompt loop (`C`/ESC
both mean cancel; any other key is re-read by its `while True` loop). -/
inductive ConfirmKey : Type where
  | yes | no | cancel

/-- `YAMLEditor.confirm_exit`: with no unsaved changes it returns `True`;
otherwise `y` saves and returns `False`, `n` returns `False`, and
cancel returns `True`. The second component is the returned bool (which
`run` assigns to `running`); the third is the store content written by
`save_changes`, if any. -/
def confirmExit (ck : ConfirmKey) (s : EditorState) : EditorState × Bool × Option Str :=
  if hasUnsavedChanges s.changes s.originalValues then
    match ck with
    | .yes => (s, false, some (saveContent s.changes))
    | .no => (s, false, none)
    | .cancel => (s, true, none)
  else (s, true, none)

/-- The abstract key events handled by `handle_navigation`. -/
inductive Key : Type where
  | up | down | tab | enter | esc | other

/-- `YAMLEditor.handle_navigation`, one input event. `hgt` is the value
`stdscr.getmaxyx()[0] - 4` used for scrolling, `inp` the text a blocking
`edit_value` call would read, `ck` the key a blocking `confirm_exit`
prompt would read. Returns the new state, the returned bool (assigned to
`running` by `run`), and the store content written, if any. -/
def handleNavigation (hgt : Int) (inp : Str) (ck : ConfirmKey)
    (s : EditorState) (k : Key) : EditorState × Bool × Option Str :=
  match k with
  | .up =>
    if s.editMode then
      if s.editPosition > 0 then
        let ep := s.editPosition - 1
        let eso := if ep < s.editScrollOffset then ep else s.editScrollOffset
        ({ s with editPosition := ep, editScrollOffset := eso }, true, none)
      else (s, true, none)
    else
      if s.navPosition > 0 then
        let np := s.navPosition - 1
        let so := if np < s.scrollOffset then np else s.scrollOffset
        ({ s with navPosition := np, scrollOffset := so }, true, none)
      else (s, true, none)
  | .down =>
    let items := if s.editMode then editableNodes s else navigableNodes s
    let maxPos : Int := (items.length : Int) - 1
    if s.editMode then
      if s.editPosition < maxPos then
        let ep := s.editPosition + 1
        let eso := if ep ≥ s.editScrollOffset + hgt then ep - hgt + 1
                   else s.editScrollOffset
        ({ s with editPosition := ep, editScrollOffset := eso }, true, none)
      else (s, true, none)
    else
      if s.navPosition < maxPos then
        let np := s.navPosition + 1
        let so := if np ≥ s.scrollOffset + hgt then np - hgt + 1
                  else s.scrollOffset
        ({ s with navPosition := np, scrollOffset := so }, true, none)
      else (s, true, none)
  | .tab =>
    ({ s with editMode := !s.editMode }, true, none)
  | .enter =>
    if s.editMode then
      let items := editableNodes s
      if items.length ≠ 0 ∧ 0 ≤ s.editPosition ∧ s.editPosition < (items.length : Int) then
        (editValueStep inp s, true, none)
      else (s, true, none)
    else
      let items := navigableNodes s
      if items.length ≠ 0 ∧ 0 ≤ s.navPosition ∧ s.navPosition < (items.length : Int) then
        match nthSatIdx (fun n => !n.isLeaf) (currentNode s).children s.navPosition.toNat with
        | some j =>
          ({ s with pos := s.pos ++ [j], navPosition := 0, scrollOffset := 0,
                    editPosition := 0, editScrollOffset := 0 }, true, none)
        | none => (s, true, none)
      else (s, true, none)
  | .esc =>
    if s.editMode then ({ s with editMode := false }, true, none)
    else if s.pos ≠ [] then
      ({ s with pos := s.pos.dropLast, navPosition := 0, scrollOffset := 0,
                editPosition := 0, editScrollOffset := 0 }, true, none)
    else confirmExit ck s
  | .other => (s, true, none)

/-- Cursor of the currently active pane. -/
def activeCursor (s : EditorState) : Int :=
  if s.editMode then s.editPosition else s.navPosition

/-- Item count of the currently active pane. -/
def activeCount (s : EditorState) : Int :=
  if s.editMode then ((editableNodes s).length : Int)
  else ((navigableNodes s).length : Int)

/-- A concrete one-entry store content, `export A=1` plus newline. -/
def storeC6 : Str := ['e', 'x', 'p', 'o', 'r', 't', ' ', 'A', '=', '1', '\n']

/-- A concrete clean editor state at the root of a small document. -/
def stateC1 : EditorState :=
  { root := buildNode ['r'] (.m [(['a'], .s ['1'])]),
    changes := [], originalValues := [], pos := [],
    navPosition := 0, scrollOffset := 0, editPosition := 0,
    editScrollOffset := 0, editMode := false }

/-- A document whose root has two non-leaf children and no leaf child. -/
def treeC8 : YAMLNode :=
  buildNode ['r'] (.m [(['a'], .m [(['x'], .s ['1'])]), (['b'], .m [])])

/-- Nav pane active at the root of `treeC8` (two items), cursor on 1. -/
def stateC8a : EditorState :=
  { root := treeC8, changes := [], originalValues := [], pos := [],
    navPosition := 1, scrollOffset := 0, editPosition := 0,
    editScrollOffset := 0, editMode := false }

/-- Edit pane active at the root of `treeC8` (zero items). -/
def stateC8b : EditorState :=
  { root := treeC8, changes := [], originalValues := [], pos := [],
    navPosition := 0, scrollOffset := 0, editPosition := 0,
    editScrollOffset := 0, editMode := true }

theorem containsC_eq_false {c : Char} {l : Str} :
    containsC c l = false ↔ ∀ x ∈ l, x ≠ c := by
  induction l with
  | nil => simp [containsC]
  | cons y t ih =>
    by_cases h : y = c
    · subst h; simp [containsC]
    · simp [containsC, h, ih]

theorem containsC_append {c : Char} :
    ∀ (l1 l2 : Str), containsC c (l1 ++ l2) = (containsC c l1 || containsC c l2)
  | [], _ => by simp [containsC]
  | x :: t, l2 => by
    by_cases h : x = c <;> simp [containsC, h, containsC_append t l2]

theorem takeWhile_append_all {p : Char → Bool} :
    ∀ (l1 l2 : Str), (∀ x ∈ l1, p x = true) →
      (l1 ++ l2).takeWhile p = l1 ++ l2.takeWhile p
  | [], _, _ => by simp
  | x :: t, l2, h => by
    have hx : p x = true := h x (by simp)
    simp [List.takeWhile_cons, hx,
      takeWhile_append_all t l2 (fun y hy => h y (by simp [hy]))]

theorem dropWhile_append_all {p : Char → Bool} :
    ∀ (l1 l2 : Str), (∀ x ∈ l1, p x = true) →
      (l1 ++ l2).dropWhile p = l2.dropWhile p
  | [], _, _ => by simp
  | x :: t, l2, h => by
    have hx : p x = true := h x (by simp)
    simp [List.dropWhile_cons, hx,
      dropWhile_append_all t l2 (fun y hy => h y (by simp [hy]))]

theorem dropTrail_concat {p : Char → Bool} (l : Str) (c : Char) (h : p c = false) :
    dropTrail p (l ++ [c]) = l ++ [c] := by
  simp [dropTrail, List.reverse_append, List.dropWhile_cons, h]

theorem lastCh_concat (l : Str) (c d : Char) : lastCh (l ++ [c]) d = c := by
  simp [lastCh, headCh, List.reverse_append]

theorem goodName_parts {n : Str} (hn : goodName n = true) :
    containsC '=' n = false ∧ containsC '\n' n = false := by
  simpa [goodName, Bool.and_eq_true, Bool.not_eq_true'] using hn

theorem goodVal_parts {v : Str} (hv : goodVal v = true) :
    containsC '\n' v = false ∧
    (v = [] ∨ (wsChar (lastCh v ' ') = false ∧ quoteChar (lastCh v ' ') = false ∧
               quoteChar (headCh v ' ') = false)) := by
  have h : containsC '\n' v = false ∧
      (v = [] ∨ ((wsChar (lastCh v ' ') = false ∧ quoteChar (lastCh v ' ') = false) ∧
        quoteChar (headCh v ' ') = false)) := by
    simpa [goodVal, Bool.and_eq_true, Bool.or_eq_true, Bool.not_eq_true',
      List.isEmpty_iff] using hv
  exact ⟨h.1, h.2.imp id (fun x => ⟨x.1.1, x.1.2, x.2⟩)⟩

theorem stripWs_renderLine (n v : Str) (hv : goodVal v = true) :
    stripWs (renderLine n v) = renderLine n v := by
  rcases goodVal_parts hv with ⟨-, hv2⟩
  have hdrop : (renderLine n v).dropWhile wsChar = renderLine n v := by
    have he : renderLine n v = 'e' :: (['x', 'p', 'o', 'r', 't', ' '] ++ n ++ '=' :: v) := by
      simp [renderLine, exportHdr]
    rw [he, List.dropWhile_cons]
    simp [wsChar]
  unfold stripWs
  rw [hdrop]
  rcases hv2 with rfl | ⟨hw, -, -⟩
  · have he : renderLine n [] = (exportHdr ++ n) ++ ['='] := by simp [renderLine]
    rw [he, dropTrail_concat _ _ (by decide : wsChar '=' = false)]
  · rcases List.eq_nil_or_concat v with rfl | ⟨L, c, rfl⟩
    · simp [lastCh, headCh, wsChar] at hw
    · simp only [List.concat_eq_append] at hw ⊢
      have hc : wsChar c = false := by simpa [lastCh_concat] using hw
      have he : renderLine n (L ++ [c]) = (exportHdr ++ n ++ '=' :: L) ++ [c] := by
        simp [renderLine]
      rw [he, dropTrail_concat _ _ hc]

theorem take7_hdr (t : Str) : (exportHdr ++ t).take 7 = exportHdr := rfl

theorem drop7_hdr (t : Str) : (exportHdr ++ t).drop 7 = t := rfl

theorem stripExport_hdr (t : Str) : stripExport (exportHdr ++ t) = some t := by
  unfold stripExport
  rw [take7_hdr, drop7_hdr]
  simp

theorem stripQuotes_id (v : Str) (hv : goodVal v = true) : stripQuotes v = v := by
  rcases goodVal_parts hv with ⟨-, hv2⟩
  rcases hv2 with rfl | ⟨-, hq1, hq2⟩
  · rfl
  · rcases List.eq_nil_or_concat v with rfl | ⟨L, c, rfl⟩
    · rfl
    · simp only [List.concat_eq_append] at hq1 hq2 ⊢
      have hc : quoteChar c = false := by simpa [lastCh_concat] using hq1
      have hdw : (L ++ [c]).dropWhile quoteChar = L ++ [c] := by
        cases L with
        | nil => simp [List.dropWhile_cons, hc]
        | cons x t =>
          have hx : quoteChar x = false := by simpa using hq2
          simp [List.dropWhile_cons, hx]
      unfold stripQuotes
      rw [hdw, dropTrail_concat _ _ hc]

theorem parseLine_renderLine (n v : Str) (hn : goodName n = true)
    (hv : goodVal v = true) : parseLine (renderLine n v) = some (n, v) := by
  have hne : ∀ x ∈ n, x ≠ '=' := containsC_eq_false.mp (goodName_parts hn).1
  unfold parseLine
  rw [stripWs_renderLine n v hv]
  have he : renderLine n v = exportHdr ++ (n ++ '=' :: v) := by simp [renderLine]
  rw [he, stripExport_hdr]
  have hcontains : containsC '=' (n ++ '=' :: v) = true := by
    rw [containsC_append]; simp [containsC]
  have htake : (n ++ '=' :: v).takeWhile (fun c => !(c == '=')) = n := by
    rw [takeWhile_append_all n _ (fun x hx => by simp [hne x hx])]
    simp [List.takeWhile_cons]
  have hdrop : (n ++ '=' :: v).dropWhile (fun c => !(c == '=')) = '=' :: v := by
    rw [dropWhile_append_all n _ (fun x hx => by simp [hne x hx])]
    simp [List.dropWhile_cons]
  simp [hcontains, htake, hdrop, stripQuotes_id v hv]

theorem parseLine_nil : parseLine [] = none := rfl

theorem splitOnChar_sepfree (c : Char) :
    ∀ (l : Str), containsC c l = false → splitOnChar c l = [l]
  | [], _ => rfl
  | x :: t, h => by
    by_cases hx : x = c
    · simp [containsC, hx] at h
    · simp only [containsC, hx, if_false] at h
      simp [splitOnChar, hx, splitOnChar_sepfree c t h]

theorem splitOnChar_append_sep (c : Char) :
    ∀ (l1 l2 : Str), containsC c l1 = false →
      splitOnChar c (l1 ++ c :: l2) = l1 :: splitOnChar c l2
  | [], l2, _ => by simp [splitOnChar]
  | x :: t, l2, h => by
    by_cases hx : x = c
    · simp [containsC, hx] at h
    · simp only [containsC, hx, if_false] at h
      simp [splitOnChar, hx, splitOnChar_append_sep c t l2 h]

theorem renderLine_noNL (n v : Str) (hn : goodName n = true)
    (hv : goodVal v = true) : containsC '\n' (renderLine n v) = false := by
  have h1 := (goodName_parts hn).2
  have h2 := (goodVal_parts hv).1
  have h0 : containsC '\n' exportHdr = false := by decide
  simp [renderLine, containsC_append, h0, h1, h2, containsC]

theorem split_saveContent :
    ∀ (l : Dict), (∀ p ∈ l, goodName p.1 = true ∧ goodVal p.2 = true) →
      splitOnChar '\n' (saveContent l) = l.map (fun p => renderLine p.1 p.2) ++ [[]]
  | [], _ => rfl
  | p :: t, h => by
    have hp := h p (by simp)
    have hline := renderLine_noNL p.1 p.2 hp.1 hp.2
    have hs : saveContent (p :: t) = renderLine p.1 p.2 ++ '\n' :: saveContent t := by
      simp [saveContent, concatAll, List.append_assoc]
    rw [hs, splitOnChar_append_sep _ _ _ hline,
      split_saveContent t (fun q hq => h q (by simp [hq]))]
    simp

theorem loadLines_append :
    ∀ (xs ys : List Str) (d : Dict), loadLines (xs ++ ys) d = loadLines ys (loadLines xs d)
  | [], _, _ => rfl
  | x :: t, ys, d => by
    cases h : parseLine x <;> simp [loadLines, h, loadLines_append t ys]

theorem memB_eq_true {x : Str} : ∀ {l : List Str}, memB x l = true ↔ x ∈ l := by
  intro l
  induction l with
  | nil => simp [memB]
  | cons y t ih =>
    by_cases h : x = y
    · subst h; simp [memB]
    · simp [memB, h, ih]

theorem memB_append (x : Str) :
    ∀ (l1 l2 : List Str), memB x (l1 ++ l2) = (memB x l1 || memB x l2)
  | [], _ => by simp [memB]
  | y :: t, l2 => by
    by_cases h : x = y <;> simp [memB, h, memB_append x t l2]

theorem fst_mem_keysOf {p : Str × Str} : ∀ {d : Dict}, p ∈ d → p.1 ∈ keysOf d := by
  intro d
  induction d with
  | nil => intro h; simp at h
  | cons q t ih =>
    intro h
    rcases List.mem_cons.mp h with he | ht
    · subst he; simp [keysOf]
    · simp [keysOf, ih ht]

theorem keysOf_append : ∀ (d1 d2 : Dict), keysOf (d1 ++ d2) = keysOf d1 ++ keysOf d2
  | [], _ => rfl
  | p :: t, d2 => by simp [keysOf, keysOf_append t d2]

theorem insertD_fresh (k v : Str) :
    ∀ (d : Dict), memB k (keysOf d) = false → insertD k v d = d ++ [(k, v)]
  | [], _ => rfl
  | p :: t, h => by
    have h' : ¬ k = p.1 ∧ memB k (keysOf t) = false := by
      by_cases hk : k = p.1
      · simp [keysOf, memB, hk] at h
      · refine ⟨hk, ?_⟩
        simpa [keysOf, memB, hk] using h
    simp [insertD, h'.1, insertD_fresh k v t h'.2]

theorem loadLines_renders :
    ∀ (l : Dict) (acc : Dict), nodupB (keysOf l) = true →
      (∀ p ∈ l, goodName p.1 = true ∧ goodVal p.2 = true) →
      (∀ p ∈ l, memB p.1 (keysOf acc) = false) →
      loadLines (l.map (fun p => renderLine p.1 p.2)) acc = acc ++ l
  | [], acc, _, _, _ => by simp [loadLines]
  | p :: t, acc, hnd, hgood, hfresh => by
    have hp := hgood p (by simp)
    have hnd' : memB p.1 (keysOf t) = false ∧ nodupB (keysOf t) = true := by
      simpa [keysOf, nodupB, Bool.and_eq_true, Bool.not_eq_true'] using hnd
    have hfr : ∀ q ∈ t, memB q.1 (keysOf (acc ++ [p])) = false := by
      intro q hq
      have hq1 : memB q.1 (keysOf acc) = false := hfresh q (by simp [hq])
      have hq2 : ¬ q.1 = p.1 := by
        intro he
        have hmem : memB p.1 (keysOf t) = true :=
          memB_eq_true.mpr (he ▸ fst_mem_keysOf hq)
        rw [hmem] at hnd'; exact absurd hnd'.1 (by simp)
      have hkeys : keysOf (acc ++ [p]) = keysOf acc ++ [p.1] := by
        rw [keysOf_append]; rfl
      rw [hkeys, memB_append, hq1]
      simp [memB, hq2]
    simp only [List.map_cons, loadLines, parseLine_renderLine p.1 p.2 hp.1 hp.2]
    rw [insertD_fresh p.1 p.2 acc (hfresh p (by simp)),
      loadLines_renders t (acc ++ [p]) hnd'.2 (fun q hq => hgood q (by simp [hq])) hfr]
    simp

/-- Claim C2 (amended): `save_changes` followed by `load_env_file` on the
same store reconstructs the persisted ledger exactly, for every entry
order, provided every key is free of `=` and newlines and every value is
free of newlines, does not end in whitespace, and neither starts nor ends
with a quote character. -/
theorem C2_roundtrip_amended (l : Dict) (hkeys : nodupB (keysOf l) = true)
    (hwf : ∀ p ∈ l, goodName p.1 = true ∧ goodVal p.2 = true) :
    loadStore (saveContent l) = l := by
  unfold loadStore
  rw [split_saveContent l hwf, loadLines_append,
    loadLines_renders l [] hkeys hwf (fun p _ => rfl)]
  simp [loadLines, parseLine_nil]

/-- Claim C2 counterexample: a ledger whose value is wrapped in single
quotes does not survive the persist/load round trip, because
`load_env_file` strips quotes; the reconstructed map differs from the
persisted one. -/
theorem C2_roundtrip_cex :
    loadStore (saveContent [(['A'], ['\'', '1', '\''])]) = [(['A'], ['1'])] ∧
    lookupD ['A'] (loadStore (saveContent [(['A'], ['\'', '1', '\''])])) ≠
      lookupD ['A'] [(['A'], ['\'', '1', '\''])] := by decide

/-- Witness for C2: the amended round trip evaluated on a concrete
two-entry ledger satisfying the side conditions. -/
theorem C2_roundtrip_amended_witness :
    nodupB (keysOf [(['A'], ['1']), (['B'], ['x', ' ', 'y'])]) = true ∧
    (∀ p ∈ [(['A'], ['1']), (['B'], ['x', ' ', 'y'])],
      goodName p.1 = true ∧ goodVal p.2 = true) ∧
    loadStore (saveContent [(['A'], ['1']), (['B'], ['x', ' ', 'y'])]) =
      [(['A'], ['1']), (['B'], ['x', ' ', 'y'])] :=
  ⟨by decide, by decide, C2_roundtrip_amended _ (by decide) (by decide)⟩

theorem lookupD_mem {k v : Str} : ∀ {d : Dict}, lookupD k d = some v → (k, v) ∈ d := by
  intro d
  induction d with
  | nil => intro h; simp [lookupD] at h
  | cons p t ih =>
    obtain ⟨k', v'⟩ := p
    intro h
    by_cases hk : k = k'
    · subst hk
      have h' : v' = v := by simpa [lookupD] using h
      subst h'
      exact List.mem_cons_self _ _
    · simp only [lookupD, if_neg hk] at h
      exact List.mem_cons_of_mem _ (ih h)

theorem mem_lookupD : ∀ {d : Dict}, nodupB (keysOf d) = true →
    ∀ {k v : Str}, (k, v) ∈ d → lookupD k d = some v := by
  intro d
  induction d with
  | nil => intro _ k v h; simp at h
  | cons p t ih =>
    obtain ⟨k', v'⟩ := p
    intro hnd k v h
    have hnd' : memB k' (keysOf t) = false ∧ nodupB (keysOf t) = true := by
      simpa [keysOf, nodupB, Bool.and_eq_true, Bool.not_eq_true'] using hnd
    rcases List.mem_cons.mp h with he | ht
    · cases he
      simp [lookupD]
    · by_cases hk : k = k'
      · subst hk
        have hmem : memB k (keysOf t) = true :=
          memB_eq_true.mpr (fst_mem_keysOf ht)
        rw [hmem] at hnd'
        exact absurd hnd'.1 (by simp)
      · simp [lookupD, hk, ih hnd'.2 ht]

theorem dictEqB_lookup {d1 d2 : Dict} (h : dictEqB d1 d2 = true) :
    ∀ k, lookupD k d1 = lookupD k d2 := by
  unfold dictEqB at h
  rw [Bool.and_eq_true] at h
  obtain ⟨h1, h2⟩ := h
  intro k
  cases hv : lookupD k d1 with
  | some v =>
    have := (List.all_eq_true.mp h1) (k, v) (lookupD_mem hv)
    simp only [beq_iff_eq] at this
    exact this.symm
  | none =>
    cases hw : lookupD k d2 with
    | none => rfl
    | some w =>
      have := (List.all_eq_true.mp h2) (k, w) (lookupD_mem hw)
      simp only [beq_iff_eq] at this
      rw [hv] at this
      simp at this

theorem lookup_dictEqB {d1 d2 : Dict} (h1 : nodupB (keysOf d1) = true)
    (h2 : nodupB (keysOf d2) = true) (h : ∀ k, lookupD k d1 = lookupD k d2) :
    dictEqB d1 d2 = true := by
  unfold dictEqB
  rw [Bool.and_eq_true]
  constructor <;> rw [List.all_eq_true] <;> intro p hp
  · have hl : lookupD p.1 d1 = some p.2 := mem_lookupD h1 hp
    simp [beq_iff_eq, ← h p.1, hl]
  · have hl : lookupD p.1 d2 = some p.2 := mem_lookupD h2 hp
    simp [beq_iff_eq, h p.1, hl]

theorem lookupD_insertD_self (k v : Str) :
    ∀ (d : Dict), lookupD k (insertD k v d) = some v
  | [] => by simp [insertD, lookupD]
  | p :: t => by
    by_cases hk : k = p.1
    · simp [insertD, hk, lookupD]
    · simp [insertD, hk, lookupD, lookupD_insertD_self k v t]

theorem lookupD_insertD_ne {k' k : Str} (hne : k' ≠ k) (v : Str) :
    ∀ (d : Dict), lookupD k' (insertD k v d) = lookupD k' d
  | [] => by simp [insertD, lookupD, hne]
  | p :: t => by
    by_cases hk : k = p.1
    · subst hk
      simp [insertD, lookupD, hne]
    · simp only [insertD, if_neg hk, lookupD, lookupD_insertD_ne hne v t]

theorem memB_keysOf_insertD {x k : Str} (v : Str) :
    ∀ (d : Dict), memB x (keysOf (insertD k v d)) = true ↔
      (memB x (keysOf d) = true ∨ x = k)
  | [] => by
    by_cases hx : x = k <;> simp [insertD, keysOf, memB, hx]
  | p :: t => by
    by_cases hk : k = p.1
    · subst hk
      by_cases hx : x = p.1 <;> simp [insertD, keysOf, memB, hx]
    · by_cases hx : x = p.1
      · simp [insertD, hk, keysOf, memB, hx]
      · simp [insertD, hk, keysOf, memB, hx, memB_keysOf_insertD v t]

theorem nodupB_keysOf_insertD (k v : Str) :
    ∀ (d : Dict), nodupB (keysOf d) = true → nodupB (keysOf (insertD k v d)) = true
  | [], _ => rfl
  | p :: t, hnd => by
    have hnd' : memB p.1 (keysOf t) = false ∧ nodupB (keysOf t) = true := by
      simpa [keysOf, nodupB, Bool.and_eq_true, Bool.not_eq_true'] using hnd
    by_cases hk : k = p.1
    · subst hk
      simp only [insertD, if_pos rfl]
      simpa [keysOf, nodupB, Bool.and_eq_true, Bool.not_eq_true'] using hnd
    · have hfresh : memB p.1 (keysOf (insertD k v t)) = false := by
        cases hmem : memB p.1 (keysOf (insertD k v t)) with
        | false => rfl
        | true =>
          rcases (memB_keysOf_insertD v t).mp hmem with hin | he
          · rw [hin] at hnd'; exact absurd hnd'.1 (by simp)
          · exact absurd he.symm hk
      have hrec := nodupB_keysOf_insertD k v t hnd'.2
      simp [insertD, hk, keysOf, nodupB, hfresh, hrec, Bool.not_eq_true']

theorem nodupB_loadLines :
    ∀ (ls : List Str) (d : Dict), nodupB (keysOf d) = true →
      nodupB (keysOf (loadLines ls d)) = true
  | [], _, h => h
  | l :: ls, d, h => by
    cases hp : parseLine l with
    | none =>
      simp only [loadLines, hp]
      exact nodupB_loadLines ls d h
    | some nv =>
      simp only [loadLines, hp]
      exact nodupB_loadLines ls _ (nodupB_keysOf_insertD nv.1 nv.2 d h)

theorem nodupB_loadStore (c : Str) : nodupB (keysOf (loadStore c)) = true :=
  nodupB_loadLines _ [] rfl

/-- Claim C6: `has_unsaved_changes` is false immediately after
`load_env_file` (both ledgers equal), becomes true after any edit that
records a value differing from the original entry for that identity
(whatever the current ledger is), and is false again after a subsequent
edit restoring that identity's original value. -/
theorem C6_dirty_tracking (content i v w : Str) (ch : Dict) :
    hasUnsavedChanges (loadStore content) (loadStore content) = false ∧
    (lookupD i (loadStore content) ≠ some v →
      hasUnsavedChanges (insertD i v ch) (loadStore content) = true) ∧
    (lookupD i (loadStore content) = some w →
      hasUnsavedChanges (insertD i w (insertD i v (loadStore content)))
        (loadStore content) = false) := by
  have hnd : nodupB (keysOf (loadStore content)) = true := nodupB_loadStore content
  refine ⟨?_, ?_, ?_⟩
  · unfold hasUnsavedChanges
    rw [lookup_dictEqB hnd hnd (fun _ => rfl)]
    rfl
  · intro hne
    unfold hasUnsavedChanges
    cases hb : dictEqB (insertD i v ch) (loadStore content) with
    | false => rfl
    | true =>
      exfalso
      have := dictEqB_lookup hb i
      rw [lookupD_insertD_self] at this
      exact hne this.symm
  · intro hw
    unfold hasUnsavedChanges
    have heq : dictEqB (insertD i w (insertD i v (loadStore content)))
        (loadStore content) = true := by
      apply lookup_dictEqB
      · exact nodupB_keysOf_insertD i w _ (nodupB_keysOf_insertD i v _ hnd)
      · exact hnd
      · intro k
        by_cases hk : k = i
        · subst hk
          rw [lookupD_insertD_self, hw]
        · rw [lookupD_insertD_ne hk, lookupD_insertD_ne hk]
    rw [heq]
    rfl

/-- Witness for C6 on a concrete store: clean after load, dirty after
editing `A` to `2`, clean again after restoring `1`. -/
theorem C6_dirty_tracking_witness :
    lookupD ['A'] (loadStore storeC6) ≠ some ['2'] ∧
    lookupD ['A'] (loadStore storeC6) = some ['1'] ∧
    hasUnsavedChanges (loadStore storeC6) (loadStore storeC6) = false ∧
    hasUnsavedChanges (insertD ['A'] ['2'] (loadStore storeC6)) (loadStore storeC6) = true ∧
    hasUnsavedChanges (insertD ['A'] ['1'] (insertD ['A'] ['2'] (loadStore storeC6)))
      (loadStore storeC6) = false :=
  ⟨by decide, by decide,
   (C6_dirty_tracking storeC6 ['A'] ['2'] ['1'] (loadStore storeC6)).1,
   (C6_dirty_tracking storeC6 ['A'] ['2'] ['1'] (loadStore storeC6)).2.1 (by decide),
   (C6_dirty_tracking storeC6 ['A'] ['2'] ['1'] (loadStore storeC6)).2.2 (by decide)⟩

theorem nodeInd {P : YAMLNode → Prop}
    (h : ∀ k v cs lf ev cm, (∀ c ∈ cs, P c) → P (.mk k v cs lf ev cm)) :
    ∀ n, P n
  | .mk k v cs lf ev cm => h k v cs lf ev cm (fun c hc => nodeInd h c)
termination_by n => sizeOf n
decreasing_by
  simp_wf
  have h1 := List.sizeOf_lt_of_mem hc
  omega

theorem valInd {P : YVal → Prop} (hs : ∀ str, P (.s str)) (hi : ∀ n, P (.i n))
    (hm : ∀ kvs, (∀ a b, (a, b) ∈ kvs → P b) → P (.m kvs)) : ∀ v, P v
  | .s str => hs str
  | .i n => hi n
  | .m kvs => hm kvs (fun a b hab => valInd hs hi hm b)
termination_by v => sizeOf v
decreasing_by
  simp_wf
  have h1 := List.sizeOf_lt_of_mem hab
  simp only [Prod.mk.sizeOf_spec] at h1
  omega

theorem updVal_idem (changes : Dict) (chain : List Str) (ev : Option Str)
    (lf : Bool) (v : YVal) :
    updVal changes chain ev lf (updVal changes chain ev lf v) =
      updVal changes chain ev lf v := by
  cases he : envTruthy ev
  · cases hlf : lf
    · simp [updVal, he, hlf]
    · cases hl : lookupD (joinU chain) changes <;> simp [updVal, he, hlf, hl]
  · cases hl : lookupD (ev.getD []) changes <;> simp [updVal, he, hl]

theorem updateNode_key (changes : Dict) (chain : List Str) :
    ∀ (n : YAMLNode), (updateNode changes chain n).key = n.key
  | .mk _ _ _ _ _ _ => rfl

theorem updateForest_idem_of (changes : Dict) :
    ∀ (cs : List YAMLNode),
      (∀ c ∈ cs, ∀ chain, updateNode changes chain (updateNode changes chain c) =
        updateNode changes chain c) →
      ∀ chain, updateForest changes chain (updateForest changes chain cs) =
        updateForest changes chain cs
  | [], _, _ => rfl
  | c :: t, h, chain => by
    simp only [updateForest]
    rw [updateNode_key, h c (by simp) (chain ++ [c.key]),
      updateForest_idem_of changes t (fun c' hc' => h c' (by simp [hc'])) chain]

/-- Claim C7: rehydration is idempotent. For every ledger, every tree and
every ancestor chain, applying `_update_node_values` twice gives the same
tree (in particular the same display values) as applying it once. -/
theorem C7_rehydrate_idem (changes : Dict) :
    ∀ (n : YAMLNode) (chain : List Str),
      updateNode changes chain (updateNode changes chain n) =
        updateNode changes chain n := by
  apply nodeInd
  intro k v cs lf ev cm ih chain
  simp only [updateNode]
  rw [updVal_idem, updateForest_idem_of changes cs ih chain]

theorem mem_allNodesF_buildForest :
    ∀ (kvs : List (Str × YVal)) (n : YAMLNode),
      n ∈ allNodesF (buildForest kvs) → ∃ p ∈ kvs, n ∈ allNodes (buildNode p.1 p.2)
  | [], n, h => by simp [buildForest, allNodesF] at h
  | kv :: rest, n, h => by
    simp only [buildForest, allNodesF, List.mem_append] at h
    rcases h with h | h
    · exact ⟨kv, by simp, h⟩
    · obtain ⟨p, hp, hn⟩ := mem_allNodesF_buildForest rest n h
      exact ⟨p, by simp [hp], hn⟩

theorem buildNode_inv : ∀ (doc : YVal) (k : Str) (n : YAMLNode),
    n ∈ allNodes (buildNode k doc) →
    n.isLeaf = !(isMap n.value) ∧ (n.isLeaf = true → n.children = []) ∧
    (n.envVar ≠ none → n.isLeaf = true) := by
  apply valInd
  · intro str k n h
    simp only [buildNode, allNodes, allNodesF, List.mem_singleton] at h
    subst h
    exact ⟨rfl, fun _ => rfl, fun _ => rfl⟩
  · intro i k n h
    simp only [buildNode, allNodes, allNodesF, List.mem_singleton] at h
    subst h
    exact ⟨rfl, fun _ => rfl, fun _ => rfl⟩
  · intro kvs ih k n h
    simp only [buildNode, allNodes] at h
    rcases List.mem_cons.mp h with he | ht
    · subst he
      refine ⟨rfl, ?_, ?_⟩
      · intro hlf; exact absurd hlf (by simp [YAMLNode.isLeaf])
      · intro henv; exact absurd rfl henv
    · obtain ⟨p, hp, hn⟩ := mem_allNodesF_buildForest kvs n ht
      obtain ⟨a, b⟩ := p
      exact ih a b hp a n hn

/-- Claim C5 (amended): for every node of a tree built from a parsed
document value, `is_leaf` holds iff the node's value is not a mapping;
every leaf has no children, and `env_var` is only ever set on leaves.
The converse direction of the original claim fails: a node built from an
empty mapping has no children but is not a leaf. -/
theorem C5_leaf_iff_amended (k : Str) (doc : YVal) (n : YAMLNode)
    (h : n ∈ allNodes (buildNode k doc)) :
    n.isLeaf = !(isMap n.value) ∧ (n.isLeaf = true → n.children = []) ∧
    (n.envVar ≠ none → n.isLeaf = true) :=
  buildNode_inv doc k n h

/-- Claim C5 counterexample: in the tree built from the document
`{a: {}}`, the node for `a` has no children yet `is_leaf` is false, so
"leaf iff no children" fails on built trees. -/
theorem C5_leaf_iff_cex :
    ¬ (∀ (k : Str) (doc : YVal), ∀ n ∈ allNodes (buildNode k doc),
        (n.isLeaf = true ↔ n.children = [])) := by
  intro h
  have h2 := h ['r'] (.m [(['a'], .m [])]) (buildNode ['a'] (.m []))
    (.tail _ (.head _))
  simp [buildNode, buildForest, YAMLNode.isLeaf, YAMLNode.children] at h2

/-- Witness for C5 on a concrete document: the leaf `a` of `{a: "1"}`. -/
theorem C5_leaf_iff_amended_witness :
    buildNode ['a'] (.s ['1']) ∈ allNodes (buildNode ['r'] (.m [(['a'], .s ['1'])])) ∧
    ((buildNode ['a'] (.s ['1'])).isLeaf =
      !(isMap (buildNode ['a'] (.s ['1'])).value) ∧
     ((buildNode ['a'] (.s ['1'])).isLeaf = true →
      (buildNode ['a'] (.s ['1'])).children = []) ∧
     ((buildNode ['a'] (.s ['1'])).envVar ≠ none →
      (buildNode ['a'] (.s ['1'])).isLeaf = true)) :=
  ⟨.tail _ (.head _),
   C5_leaf_iff_amended ['r'] (.m [(['a'], .s ['1'])]) _ (.tail _ (.head _))⟩

/-- Claim C9: when the external read/parse fails, `parse_yaml` returns
(never raises) a synthetic `root` node with exactly one child: a leaf
named `error`, with no env binding and no children, whose display value
is the failure message. -/
theorem C9_parse_failure_fallback (raw e : Str) (changes : Dict) :
    (parseYaml raw (.error e) changes).key = ['r', 'o', 'o', 't'] ∧
    (parseYaml raw (.error e) changes).isLeaf = false ∧
    ((parseYaml raw (.error e) changes).children.map
      (fun c => (c.key, c.value, c.isLeaf, c.envVar, c.children))) =
      [(['e', 'r', 'r', 'o', 'r'], .s (failMsgHdr ++ e), true, none,
        ([] : List YAMLNode))] :=
  ⟨rfl, rfl, rfl⟩

/-- Claim C4 (amended): a scalar whose placeholder body has an empty part
before the first `:` is still parsed by the code (no emptiness or
trimming check): `env_var` is set to the empty string, which downstream
truthiness checks treat as no binding, and the display value becomes the
extracted default, not the original literal; `${}` yields an empty
env var and an empty display value. -/
theorem C4_empty_env_amended (k d : Str) (h : containsC '}' d = false) :
    (buildNode k (.s ('$' :: '{' :: ':' :: (d ++ ['}'])))).envVar = some [] ∧
    (buildNode k (.s ('$' :: '{' :: ':' :: (d ++ ['}'])))).value = .s d ∧
    (buildNode k (.s ['$', '{', '}'])).envVar = some [] ∧
    (buildNode k (.s ['$', '{', '}'])).value = .s [] ∧
    envTruthy (some []) = false := by
  have hall : ∀ x ∈ d, (fun c => !(c == '}')) x = true := by
    intro x hx
    have hne := containsC_eq_false.mp h x hx
    simp [hne]
  have hcont : containsC '}' ('$' :: '{' :: ':' :: (d ++ ['}'])) = true := by
    simp [containsC, containsC_append]
  have hd1 : ((d ++ ['}']) : Str).takeWhile (fun c => !(c == '}')) = d := by
    rw [takeWhile_append_all d _ hall]
    simp [List.takeWhile_cons]
  have hep : ((('$' :: '{' :: ':' :: (d ++ ['}'])) : Str).drop 2).takeWhile
      (fun c => !(c == '}')) = ':' :: d := by
    show ((':' :: (d ++ ['}'])) : Str).takeWhile (fun c => !(c == '}')) = ':' :: d
    simp [List.takeWhile_cons, hd1]
  have hpp : parsePlaceholder ('$' :: '{' :: ':' :: (d ++ ['}'])) = (some [], d) := by
    unfold parsePlaceholder
    rw [if_pos ⟨rfl, hcont⟩]
    simp only [hep]
    have hcol : containsC ':' (':' :: d) = true := by simp [containsC]
    simp [hcol, List.takeWhile_cons, List.dropWhile_cons]
  have hb : buildNode k (.s ('$' :: '{' :: ':' :: (d ++ ['}']))) =
      .mk k (.s d) [] true (some []) none := by
    simp only [buildNode, hpp]
  refine ⟨?_, ?_, rfl, rfl, rfl⟩
  · simp [hb, YAMLNode.envVar]
  · simp [hb, YAMLNode.value]

/-- Claim C4 counterexample: for the literal `${:d}`, whose part before
the first colon is empty, the code does not fall back to the literal: it
sets `env_var` to the empty string and the display value to the
extracted default `d`, which differs from the original literal. -/
theorem C4_empty_env_cex :
    (buildNode ['k'] (.s ['$', '{', ':', 'd', '}'])).envVar = some [] ∧
    (buildNode ['k'] (.s ['$', '{', ':', 'd', '}'])).value = .s ['d'] ∧
    YVal.s ['d'] ≠ YVal.s ['$', '{', ':', 'd', '}'] := by
  refine ⟨rfl, rfl, ?_⟩
  intro h
  simp at h

/-- Witness for C4 at the concrete default `default`. -/
theorem C4_empty_env_amended_witness :
    containsC '}' ['d', 'e', 'f'] = false ∧
    (buildNode ['k'] (.s ('$' :: '{' :: ':' :: (['d', 'e', 'f'] ++ ['}'])))).envVar = some [] ∧
    (buildNode ['k'] (.s ('$' :: '{' :: ':' :: (['d', 'e', 'f'] ++ ['}'])))).value =
      .s ['d', 'e', 'f'] :=
  ⟨by decide, (C4_empty_env_amended ['k'] ['d', 'e', 'f'] (by decide)).1,
   (C4_empty_env_amended ['k'] ['d', 'e', 'f'] (by decide)).2.1⟩

theorem joinU_split : ∀ (l : List Str), l ≠ [] →
    (∀ s ∈ l, containsC '_' s = false) → splitOnChar '_' (joinU l) = l
  | [], h, _ => absurd rfl h
  | [x], _, h2 => by
    simp only [joinU]
    rw [splitOnChar_sepfree '_' x (h2 x (by simp))]
  | x :: y :: t, _, h2 => by
    simp only [joinU]
    rw [splitOnChar_append_sep '_' x _ (h2 x (by simp)),
      joinU_split (y :: t) (by simp) (fun s hs => h2 s (by simp [hs]))]

theorem chainsF_shape_weak :
    ∀ (cs : List YAMLNode),
      (∀ c ∈ cs, ∀ acc ch, ch ∈ leafChains acc c → ∃ t, ch = acc ++ t) →
      ∀ acc ch, ch ∈ leafChainsF acc cs →
        ∃ c ∈ cs, ∃ t, ch = acc ++ (YAMLNode.key c) :: t
  | [], _, acc, ch, h => by simp [leafChainsF] at h
  | c :: t, hall, acc, ch, h => by
    simp only [leafChainsF, List.mem_append] at h
    rcases h with h | h
    · obtain ⟨t', ht'⟩ := hall c (by simp) (acc ++ [c.key]) ch h
      exact ⟨c, by simp, t', by simp [ht']⟩
    · obtain ⟨c', hc', t', ht'⟩ :=
        chainsF_shape_weak t (fun c'' hc'' => hall c'' (by simp [hc''])) acc ch h
      exact ⟨c', by simp [hc'], t', ht'⟩

theorem chains_shape : ∀ (n : YAMLNode) (acc ch : List Str),
    ch ∈ leafChains acc n → ∃ t, ch = acc ++ t := by
  apply nodeInd
  intro k v cs lf ev cm ih acc ch hch
  simp only [leafChains] at hch
  by_cases hb : (lf && !(envTruthy ev)) = true
  · simp [hb] at hch
    exact ⟨[], by simp [hch]⟩
  · simp [hb] at hch
    obtain ⟨c, _, t, ht⟩ := chainsF_shape_weak cs ih acc ch hch
    exact ⟨YAMLNode.key c :: t, ht⟩

theorem sibUniqB_parts {k : Str} {v : YVal} {cs : List YAMLNode} {lf : Bool}
    {ev cm : Option Str} (h : sibUniqB (.mk k v cs lf ev cm) = true) :
    nodupB (cs.map YAMLNode.key) = true ∧ sibUniqFB cs = true := by
  simpa [sibUniqB, Bool.and_eq_true] using h

theorem sibUniqFB_parts {c : YAMLNode} {t : List YAMLNode}
    (h : sibUniqFB (c :: t) = true) : sibUniqB c = true ∧ sibUniqFB t = true := by
  simpa [sibUniqFB, Bool.and_eq_true] using h

theorem undFreeB_parts {k : Str} {v : YVal} {cs : List YAMLNode} {lf : Bool}
    {ev cm : Option Str} (h : undFreeB (.mk k v cs lf ev cm) = true) :
    containsC '_' k = false ∧ undFreeFB cs = true := by
  simpa [undFreeB, Bool.and_eq_true, Bool.not_eq_true'] using h

theorem undFreeB_key : ∀ {c : YAMLNode}, undFreeB c = true →
    containsC '_' (YAMLNode.key c) = false
  | .mk _ _ _ _ _ _, h => (undFreeB_parts h).1

theorem undFreeFB_parts {c : YAMLNode} {t : List YAMLNode}
    (h : undFreeFB (c :: t) = true) : undFreeB c = true ∧ undFreeFB t = true := by
  simpa [undFreeFB, Bool.and_eq_true] using h

theorem chainsF_undfree_of :
    ∀ (cs : List YAMLNode),
      (∀ c ∈ cs, undFreeB c = true → ∀ acc, (∀ s ∈ acc, containsC '_' s = false) →
        ∀ ch ∈ leafChains acc c, ∀ s ∈ ch, containsC '_' s = false) →
      undFreeFB cs = true →
      ∀ acc, (∀ s ∈ acc, containsC '_' s = false) →
      ∀ ch ∈ leafChainsF acc cs, ∀ s ∈ ch, containsC '_' s = false
  | [], _, _, acc, _, ch, hch => by simp [leafChainsF] at hch
  | c :: t, hall, hf, acc, hacc, ch, hch => by
    obtain ⟨hc1, ht1⟩ := undFreeFB_parts hf
    simp only [leafChainsF, List.mem_append] at hch
    rcases hch with hch | hch
    · refine hall c (by simp) hc1 (acc ++ [c.key]) ?_ ch hch
      intro s hsmem
      rcases List.mem_append.mp hsmem with hs1 | hs1
      · exact hacc s hs1
      · rw [List.mem_singleton.mp hs1]
        exact undFreeB_key hc1
    · exact chainsF_undfree_of t (fun c' hc' => hall c' (by simp [hc'])) ht1 acc hacc ch hch

theorem chains_undfree : ∀ (n : YAMLNode), undFreeB n = true →
    ∀ acc, (∀ s ∈ acc, containsC '_' s = false) →
    ∀ ch ∈ leafChains acc n, ∀ s ∈ ch, containsC '_' s = false := by
  apply nodeInd
  intro k v cs lf ev cm ih hu acc hacc ch hch
  obtain ⟨-, hf⟩ := undFreeB_parts hu
  simp only [leafChains] at hch
  by_cases hb : (lf && !(envTruthy ev)) = true
  · simp [hb] at hch
    subst hch
    exact hacc
  · simp [hb] at hch
    exact chainsF_undfree_of cs ih hf acc hacc ch hch

theorem chainsF_nodup_of :
    ∀ (cs : List YAMLNode),
      (∀ c ∈ cs, sibUniqB c = true → ∀ acc, (leafChains acc c).Nodup) →
      nodupB (cs.map YAMLNode.key) = true → sibUniqFB cs = true →
      ∀ acc, (leafChainsF acc cs).Nodup
  | [], _, _, _, _ => by simp [leafChainsF]
  | c :: t, hall, hkeys, hsib, acc => by
    obtain ⟨hc1, ht1⟩ := sibUniqFB_parts hsib
    have hkeys' : memB (YAMLNode.key c) (t.map YAMLNode.key) = false ∧
        nodupB (t.map YAMLNode.key) = true := by
      simpa [List.map_cons, nodupB, Bool.and_eq_true, Bool.not_eq_true'] using hkeys
    simp only [leafChainsF]
    rw [List.nodup_append]
    refine ⟨hall c (by simp) hc1 (acc ++ [c.key]),
      chainsF_nodup_of t (fun c' hc' => hall c' (by simp [hc'])) hkeys'.2 ht1 acc, ?_⟩
    intro ch h1 h2
    obtain ⟨t1, ht1'⟩ := chains_shape c (acc ++ [c.key]) ch h1
    obtain ⟨c', hc', t2, ht2'⟩ :=
      chainsF_shape_weak t (fun c'' _ => chains_shape c'') acc ch h2
    have heq : acc ++ (YAMLNode.key c :: t1) = acc ++ (YAMLNode.key c' :: t2) := by
      calc acc ++ (YAMLNode.key c :: t1) = (acc ++ [c.key]) ++ t1 := by simp
        _ = ch := ht1'.symm
        _ = acc ++ (YAMLNode.key c' :: t2) := ht2'
    have hcons := List.append_cancel_left heq
    injection hcons with hkeq htl
    have hmemk : memB (YAMLNode.key c) (t.map YAMLNode.key) = true := by
      apply memB_eq_true.mpr
      rw [hkeq]
      exact List.mem_map.mpr ⟨c', hc', rfl⟩
    simp [hmemk] at hkeys'

theorem chains_nodup : ∀ (n : YAMLNode), sibUniqB n = true →
    ∀ acc, (leafChains acc n).Nodup := by
  apply nodeInd
  intro k v cs lf ev cm ih hs acc
  obtain ⟨hkeys, hsib⟩ := sibUniqB_parts hs
  simp only [leafChains]
  by_cases hb : (lf && !(envTruthy ev)) = true
  · simp [hb]
  · simp only [hb, if_false, Bool.not_eq_true] at *
    simp [hb]
    exact chainsF_nodup_of cs ih hkeys hsib acc

theorem nil_mem_leafChains : ∀ (n : YAMLNode),
    [] ∈ leafChains [] n → leafChains [] n = [[]]
  | .mk k v cs lf ev cm, h => by
    simp only [leafChains] at h ⊢
    by_cases hb : (lf && !(envTruthy ev)) = true
    · simp [hb]
    · simp [hb] at h ⊢
      obtain ⟨c', _, t2, ht2⟩ :=
        chainsF_shape_weak cs (fun c'' _ => chains_shape c'') [] [] h
      simp at ht2

/-- Claim C3 (amended): for a document with unique sibling keys whose
keys moreover contain no underscore, the `_`-joined path identities of
all leaves without a truthy env binding are pairwise distinct. Without
the no-underscore condition the claim fails (see the counterexample). -/
theorem C3_path_unique_amended (k : Str) (doc : YVal)
    (h1 : sibUniqB (buildNode k doc) = true)
    (h2 : undFreeB (buildNode k doc) = true) :
    ((leafChains [] (buildNode k doc)).map joinU).Nodup := by
  have main : ∀ (n : YAMLNode), sibUniqB n = true → undFreeB n = true →
      ((leafChains [] n).map joinU).Nodup := by
    intro n hs hu
    refine List.Nodup.map_on ?_ (chains_nodup n hs [])
    intro x hx y hy hxy
    by_cases hxnil : x = []
    · subst hxnil
      have hl := nil_mem_leafChains n hx
      rw [hl] at hy
      exact (List.mem_singleton.mp hy).symm
    · by_cases hynil : y = []
      · subst hynil
        have hl := nil_mem_leafChains n hy
        rw [hl] at hx
        exact absurd (List.mem_singleton.mp hx) hxnil
      · have hxf : ∀ s ∈ x, containsC '_' s = false :=
          chains_undfree n hu [] (by simp) x hx
        have hyf : ∀ s ∈ y, containsC '_' s = false :=
          chains_undfree n hu [] (by simp) y hy
        rw [← joinU_split x hxnil hxf, hxy, joinU_split y hynil hyf]
  exact main _ h1 h2

/-- Claim C3 counterexample: the document `{a_b: "1", a: {b: "2"}}` has
unique sibling keys, yet its two env-less leaves both get the path
identity `a_b`, because keys may contain the join separator. -/
theorem C3_path_unique_cex :
    sibUniqB (buildNode ['r'] (.m [(['a', '_', 'b'], .s ['1']),
      (['a'], .m [(['b'], .s ['2'])])])) = true ∧
    ¬ ((leafChains [] (buildNode ['r'] (.m [(['a', '_', 'b'], .s ['1']),
      (['a'], .m [(['b'], .s ['2'])])]))).map joinU).Nodup := by decide

/-- Witness for C3 on the document `{a: {b: "1"}, c: "2"}`. -/
theorem C3_path_unique_amended_witness :
    sibUniqB (buildNode ['r'] (.m [(['a'], .m [(['b'], .s ['1'])]),
      (['c'], .s ['2'])])) = true ∧
    undFreeB (buildNode ['r'] (.m [(['a'], .m [(['b'], .s ['1'])]),
      (['c'], .s ['2'])])) = true ∧
    ((leafChains [] (buildNode ['r'] (.m [(['a'], .m [(['b'], .s ['1'])]),
      (['c'], .s ['2'])]))).map joinU).Nodup :=
  ⟨by decide, by decide,
   C3_path_unique_amended ['r'] (.m [(['a'], .m [(['b'], .s ['1'])]),
     (['c'], .s ['2'])]) (by decide) (by decide)⟩

/-- Claim C10: the TAB branch of `handle_navigation` flips only
`edit_mode`; the tree position, both cursors, both scroll offsets and
the change ledger are untouched, nothing is written, and the session
keeps running. -/
theorem C10_toggle_frame (hgt : Int) (inp : Str) (ck : ConfirmKey) (s : EditorState) :
    handleNavigation hgt inp ck s .tab =
      ({ s with editMode := !s.editMode }, true, none) := rfl

/-- Claim C1, evaluated at the failing input: with the Nav pane active,
the position at the root and no unsaved changes, ESC makes
`confirm_exit` return `True`, which `run` assigns to `running`, so the
session keeps running instead of terminating as the claim requires. The
dirty-path behaviour (save/discard end the session, cancel keeps it)
matches the claim; the clean path is the divergence. -/
theorem C1_clean_exit_bug_eval (hgt : Int) (inp : Str) (ck : ConfirmKey)
    (s : EditorState) (h1 : s.editMode = false) (h2 : s.pos = [])
    (h3 : dictEqB s.changes s.originalValues = true) :
    handleNavigation hgt inp ck s .esc = (s, true, none) := by
  simp [handleNavigation, h1, h2, confirmExit, hasUnsavedChanges, h3]

/-- Witness for C1: the concrete clean root state. -/
theorem C1_clean_exit_bug_eval_witness :
    stateC1.editMode = false ∧ stateC1.pos = [] ∧
    dictEqB stateC1.changes stateC1.originalValues = true ∧
    handleNavigation 5 [] ConfirmKey.yes stateC1 .esc = (stateC1, true, none) :=
  ⟨rfl, rfl, by decide,
   C1_clean_exit_bug_eval 5 [] ConfirmKey.yes stateC1 rfl rfl (by decide)⟩

/-- Claim C8: MoveUp and MoveDown clamp the active pane's cursor to
`[0, count-1]` with no wraparound (the new cursor is exactly
`max (c-1) 0` resp. `min (c+1) (count-1)`), and on an empty active pane
MoveDown and Activate leave the whole state unchanged and return
normally. -/
theorem C8_cursor_clamp (hgt : Int) (inp : Str) (ck : ConfirmKey)
    (s s2 : EditorState) :
    (0 ≤ activeCursor s → activeCursor s ≤ activeCount s - 1 →
      (activeCursor (handleNavigation hgt inp ck s .up).1 =
         max (activeCursor s - 1) 0 ∧
       activeCursor (handleNavigation hgt inp ck s .down).1 =
         min (activeCursor s + 1) (activeCount s - 1) ∧
       0 ≤ activeCursor (handleNavigation hgt inp ck s .up).1 ∧
       activeCursor (handleNavigation hgt inp ck s .up).1 ≤ activeCount s - 1 ∧
       0 ≤ activeCursor (handleNavigation hgt inp ck s .down).1 ∧
       activeCursor (handleNavigation hgt inp ck s .down).1 ≤ activeCount s - 1)) ∧
    (activeCount s2 = 0 → 0 ≤ activeCursor s2 →
      handleNavigation hgt inp ck s2 .down = (s2, true, none) ∧
      handleNavigation hgt inp ck s2 .enter = (s2, true, none)) := by
  constructor
  · intro hlo hhi
    by_cases hm : s.editMode = true
    · have hcur : activeCursor s = s.editPosition := by simp [activeCursor, hm]
      have hcnt : activeCount s = ((editableNodes s).length : Int) := by
        simp [activeCount, hm]
      have hup : activeCursor (handleNavigation hgt inp ck s .up).1 =
          max (activeCursor s - 1) 0 := by
        by_cases hg : s.editPosition > 0
        · simp [handleNavigation, hm, hg, activeCursor]
          omega
        · simp [handleNavigation, hm, hg, activeCursor]
          omega
      have hdn : activeCursor (handleNavigation hgt inp ck s .down).1 =
          min (activeCursor s + 1) (activeCount s - 1) := by
        by_cases hg : s.editPosition < ((editableNodes s).length : Int) - 1
        · simp [handleNavigation, hm, hg, activeCursor]
          omega
        · simp [handleNavigation, hm, hg, activeCursor]
          omega
      refine ⟨hup, hdn, ?_, ?_, ?_, ?_⟩ <;> omega
    · have hcur : activeCursor s = s.navPosition := by simp [activeCursor, hm]
      have hcnt : activeCount s = ((navigableNodes s).length : Int) := by
        simp [activeCount, hm]
      have hup : activeCursor (handleNavigation hgt inp ck s .up).1 =
          max (activeCursor s - 1) 0 := by
        by_cases hg : s.navPosition > 0
        · simp [handleNavigation, hm, hg, activeCursor]
          omega
        · simp [handleNavigation, hm, hg, activeCursor]
          omega
      have hdn : activeCursor (handleNavigation hgt inp ck s .down).1 =
          min (activeCursor s + 1) (activeCount s - 1) := by
        by_cases hg : s.navPosition < ((navigableNodes s).length : Int) - 1
        · simp [handleNavigation, hm, hg, activeCursor]
          omega
        · simp [handleNavigation, hm, hg, activeCursor]
          omega
      refine ⟨hup, hdn, ?_, ?_, ?_, ?_⟩ <;> omega
  · intro hcnt hlo2
    by_cases hm : s2.editMode = true
    · have hlen : (editableNodes s2).length = 0 := by
        have hc : activeCount s2 = ((editableNodes s2).length : Int) := by
          simp [activeCount, hm]
        omega
      have hcur : activeCursor s2 = s2.editPosition := by simp [activeCursor, hm]
      have hng : ¬ (s2.editPosition < ((editableNodes s2).length : Int) - 1) := by
        rw [hlen]
        omega
      constructor
      · simp [handleNavigation, hm, hng]
      · simp [handleNavigation, hm, hlen]
    · have hlen : (navigableNodes s2).length = 0 := by
        have hc : activeCount s2 = ((navigableNodes s2).length : Int) := by
          simp [activeCount, hm]
        omega
      have hcur : activeCursor s2 = s2.navPosition := by simp [activeCursor, hm]
      have hng : ¬ (s2.navPosition < ((navigableNodes s2).length : Int) - 1) := by
        rw [hlen]
        omega
      constructor
      · simp [handleNavigation, hm, hng]
      · simp [handleNavigation, hm, hlen]

/-- Witness for C8: the nav pane of `stateC8a` (two items, cursor 1) and
the empty edit pane of `stateC8b`. -/
theorem C8_cursor_clamp_witness :
    (0 ≤ activeCursor stateC8a ∧ activeCursor stateC8a ≤ activeCount stateC8a - 1) ∧
    activeCursor (handleNavigation 5 [] ConfirmKey.yes stateC8a .up).1 =
      max (activeCursor stateC8a - 1) 0 ∧
    activeCursor (handleNavigation 5 [] ConfirmKey.yes stateC8a .down).1 =
      min (activeCursor stateC8a + 1) (activeCount stateC8a - 1) ∧
    (activeCount stateC8b = 0 ∧ 0 ≤ activeCursor stateC8b) ∧
    handleNavigation 5 [] ConfirmKey.yes stateC8b .down = (stateC8b, true, none) ∧
    handleNavigation 5 [] ConfirmKey.yes stateC8b .enter = (stateC8b, true, none) :=
  ⟨⟨by decide, by decide⟩,
   ((C8_cursor_clamp 5 [] ConfirmKey.yes stateC8a stateC8b).1
     (by decide) (by decide)).1,
   ((C8_cursor_clamp 5 [] ConfirmKey.yes stateC8a stateC8b).1
     (by decide) (by decide)).2.1,
   ⟨by decide, by decide⟩,
   ((C8_cursor_clamp 5 [] ConfirmKey.yes stateC8a stateC8b).2
     (by decide) (by decide)).1,
   ((C8_cursor_clamp 5 [] ConfirmKey.yes stateC8a stateC8b).2
     (by decide) (by decide)).2⟩

end YamlTui
